import Mathlib

set_option maxRecDepth 16000

/-!
Verification of the line-oriented text transformer in
`scripts/remove_sourced.py`: a shallow embedding of its data model
(documents as lists of lines, lines as lists of characters) and of its
operations, followed by theorems settling the specification claims.

Each Python regular expression used by the script is embedded as a
hand-written decidable matcher implementing exactly that pattern over
ASCII text; the scanning loop of `process_lines` is embedded with an
explicit fuel argument (the fuel is always sufficient, see
`processAux_fuel_irrel`), so that every definition is executable and
kernel-reducible.
-/

namespace RemoveSourced

/-- Characters counted by the brace-balancing logic (written via escape). -/
def openBrace : Char := '\x7b'

/-- Closing brace character. -/
def closeBrace : Char := '\x7d'

/-- Whitespace class of Python regexes and of `str.rstrip` / `str.isspace`
restricted to ASCII: space, tab, newline, carriage return, vertical tab,
form feed. -/
def isSpaceChar (c : Char) : Bool :=
  c == ' ' || c == '\t' || c == '\n' || c == '\r' || c == '\x0b' || c == '\x0c'

/-- Word-character class of Python regexes restricted to ASCII:
letters, digits and underscore. -/
def isWordChar (c : Char) : Bool :=
  c.isAlphanum || c == '_'

/-- Drop the maximal run of leading whitespace (the semantics of a
greedy anchored occurrence of the whitespace class in the source's
regexes, where the following pattern character is never whitespace). -/
def dropSpaces (s : List Char) : List Char := s.dropWhile isSpaceChar

/-- Does `p` occur at the very start of `s`? -/
def beginsWith : List Char → List Char → Bool
  | [], _ => true
  | _ :: _, [] => false
  | p :: ps, c :: cs => p == c && beginsWith ps cs

/-- Consume the literal `p` at the start of `s`, returning the remainder. -/
def stripLit : List Char → List Char → Option (List Char)
  | [], s => some s
  | _ :: _, [] => none
  | p :: ps, c :: cs => if p == c then stripLit ps cs else none

/-- Case-insensitive variant of `beginsWith` (ASCII case folding), the
semantics of a literal under the source's IGNORECASE flag. -/
def beginsWithCI : List Char → List Char → Bool
  | [], _ => true
  | _ :: _, [] => false
  | p :: ps, c :: cs => p.toLower == c.toLower && beginsWithCI ps cs

/-- Case-insensitive variant of `stripLit`. -/
def stripLitCI : List Char → List Char → Option (List Char)
  | [], s => some s
  | _ :: _, [] => none
  | p :: ps, c :: cs => if p.toLower == c.toLower then stripLitCI ps cs else none

/-- Does `p` occur as a contiguous subsequence of a list (Python's
substring membership `p in s`)? -/
def containsSeq (p : List Char) : List Char → Bool
  | [] => p.isEmpty
  | c :: cs => beginsWith p (c :: cs) || containsSeq p cs

/-- Is the first character of `s` the character `c`? -/
def headIs (c : Char) (s : List Char) : Bool :=
  match s with
  | [] => false
  | d :: _ => d == c

/-- Literal fragments of the source's trigger patterns. -/
def usingLit : List Char := "using ".toList

/-- Tail of the case-varying token: the regex fragment matches s or S then
this literal. -/
def ourcedLit : List Char := "ourced".toList

/-- Optional macro name fragment of rule 2's declaration pattern. -/
def templateLit : List Char := "TEMPLATE_".toList

/-- Macro name fragment of rule 2's declaration pattern. -/
def testCaseLit : List Char := "TEST_CASE".toList

/-- Literal tag searched for by rule 2. -/
def tagLit : List Char := "[sourced]".toList

/-- Macro name of rule 3 (matched case-insensitively). -/
def sectionLit : List Char := "SECTION".toList

/-- String-argument fragment of rule 3 (matched case-insensitively). -/
def sourcedLit : List Char := "sourced".toList

/-- First alternative of rule 4's assertion-macro pattern. -/
def staticReqLit : List Char := "STATIC_REQUIRE".toList

/-- Second alternative of rule 4's assertion-macro pattern. -/
def staticAssertLit : List Char := "static_assert".toList

/-- First alternative of rule 4's qualifier pattern. -/
def traitsLit : List Char := "traits".toList

/-- Second alternative of rule 4's qualifier pattern. -/
def gLit : List Char := "G".toList

/-- Qualified member fragment of rule 4's pattern. -/
def colonsSourcedLit : List Char := "::sourced".toList

/-- Equality operator fragment of rule 4's pattern. -/
def eqEqLit : List Char := "==".toList

/-- Attribute marker of rule 5's pattern. -/
def maybeUnusedLit : List Char := "[[maybe_unused]]".toList

/-- Pattern replaced by rule 6's inline case (15 characters). -/
def commaFF : List Char := ", false, false,".toList

/-- Replacement of rule 6's inline case (8 characters). -/
def commaF : List Char := ", false,".toList

/-- Pattern of rule 6's continuation-line case (13 characters). -/
def contFF : List Char := "false, false,".toList

/-- Replacement of rule 6's continuation-line case. -/
def contF : List Char := "false,".toList

/-- Tail check of rule 1's pattern after the case-varying token:
word characters, then whitespace, then the equals sign. -/
def aliasTail (s : List Char) : Bool :=
  headIs '=' (dropSpaces (s.dropWhile isWordChar))

/-- Scan a run of word characters for an occurrence of sourced/Sourced
followed by rule 1's tail (the `\w*[Ss]ourced\w*\s*=` part of the regex). -/
def aliasScan : List Char → Bool
  | [] => false
  | c :: cs =>
    ((c == 's' || c == 'S') && beginsWith ourcedLit cs && aliasTail (cs.drop 6))
    || (isWordChar c && aliasScan cs)

/-- Rule 1 trigger: the anchored regex matching a sourced-alias
declaration line (whitespace, the word using, a name containing
sourced/Sourced, whitespace, equals). -/
def matchAliasTrigger (line : List Char) : Bool :=
  match stripLit usingLit (dropSpaces line) with
  | some rest => aliasScan rest
  | none => false

/-- Declaration pattern of rule 2: whitespace, optional TEMPLATE_ prefix
of the macro name, TEST_CASE, whitespace, an opening parenthesis. -/
def matchTestCaseDecl (line : List Char) : Bool :=
  let s1 := dropSpaces line
  let s2 := match stripLit templateLit s1 with
    | some r => r
    | none => s1
  match stripLit testCaseLit s2 with
  | some r => headIs '(' (dropSpaces r)
  | none => false

/-- Does the line contain the literal tag of rule 2? -/
def hasTag (line : List Char) : Bool := containsSeq tagLit line

/-- Does the line contain a closing parenthesis? -/
def hasParen (line : List Char) : Bool := line.any (fun c => c == ')')

/-- Lookahead scan of `is_sourced_test_case_multiline`: examine the lines
of the window in order, answering true at the first line containing the
tag, and stopping at the first line other than the declaration line that
contains a closing parenthesis. -/
def tcScan : List (List Char) → Bool → Bool
  | [], _ => false
  | l :: rest, first =>
    if hasTag l then true
    else if !first && hasParen l then false
    else tcScan rest false

/-- Rule 2 trigger (source: `is_sourced_test_case_multiline`): the line at
index `i` matches the test-case declaration pattern and the tag appears
in the 6-line window starting at `i`, scanned until the first later line
containing a closing parenthesis. -/
def is_sourced_test_case_multiline (lines : List (List Char)) (i : Nat) : Bool :=
  matchTestCaseDecl (lines.getD i []) && tcScan ((lines.drop i).take 6) true

/-- Rule 3 trigger (source: `is_sourced_section`): whitespace, SECTION
case-insensitively, whitespace, an opening parenthesis, whitespace, a
double quote, then sourced case-insensitively. -/
def is_sourced_section (line : List Char) : Bool :=
  match stripLitCI sectionLit (dropSpaces line) with
  | some r1 =>
    (match dropSpaces r1 with
     | c :: r2 =>
       c == '(' &&
       (match dropSpaces r2 with
        | d :: r3 => d == '"' && beginsWithCI sourcedLit r3
        | [] => false)
     | [] => false)
  | none => false

/-- Rule 4's pattern anchored at the start of `s`: one of the two
assertion macros, whitespace, an opening parenthesis, whitespace, one of
the two qualifiers, the sourced member, whitespace, equality operator. -/
def srAt (s : List Char) : Bool :=
  match (match stripLit staticReqLit s with
         | some r => some r
         | none => stripLit staticAssertLit s) with
  | none => false
  | some r1 =>
    (match dropSpaces r1 with
     | c :: r2 =>
       c == '(' &&
       (let r3 := dropSpaces r2
        match (match stripLit traitsLit r3 with
               | some r => some r
               | none => stripLit gLit r3) with
        | none => false
        | some r4 =>
          (match stripLit colonsSourcedLit r4 with
           | none => false
           | some r5 => beginsWith eqEqLit (dropSpaces r5)))
     | [] => false)

/-- Rule 4 trigger: unanchored search for `srAt` at every position of the
line (the semantics of the source's regex search). -/
def matchStaticRequire : List Char → Bool
  | [] => false
  | c :: cs => srAt (c :: cs) || matchStaticRequire cs

/-- Scan a run of word characters for sourced/Sourced (rule 5's
`\w*[Ss]ourced\w*\b` part; the trailing word boundary is vacuous after a
maximal run of word characters). -/
def wordSourcedScan : List Char → Bool
  | [] => false
  | c :: cs =>
    ((c == 's' || c == 'S') && beginsWith ourcedLit cs)
    || (isWordChar c && wordSourcedScan cs)

/-- Rule 5 trigger: whitespace, the unused-variable attribute marker, at
least one whitespace character, then a declared name containing
sourced/Sourced. -/
def matchMaybeUnused (line : List Char) : Bool :=
  match stripLit maybeUnusedLit (dropSpaces line) with
  | some r =>
    (match r with
     | c :: cs => isSpaceChar c && wordSourcedScan (cs.dropWhile isSpaceChar)
     | [] => false)
  | none => false

/-- Replace the leftmost occurrence of `commaFF` by `commaF` (the
semantics of the source's single-count string replace). -/
def replaceFirstFF : List Char → List Char
  | [] => []
  | c :: cs =>
    if beginsWith commaFF (c :: cs) then commaF ++ (c :: cs).drop 15
    else c :: replaceFirstFF cs

/-- Rule 6 of `process_lines`: if the line contains the two-consecutive
false pattern, replace its first occurrence; otherwise, if after optional
leading whitespace the line begins with the continuation pattern, rewrite
that prefix once, preserving the leading whitespace; otherwise leave the
line unchanged. -/
def rule6Rewrite (line : List Char) : List Char :=
  if containsSeq commaFF line then replaceFirstFF line
  else if beginsWith contFF (line.dropWhile isSpaceChar) then
    line.takeWhile isSpaceChar ++ contF ++ ((line.dropWhile isSpaceChar).drop 13)
  else line

/-- Is the last character of the line, after stripping trailing
whitespace, a semicolon (the source's rstrip-endswith test)? -/
def endsSemi (l : List Char) : Bool :=
  headIs ';' (l.reverse.dropWhile isSpaceChar)

/-- Loop of `remove_multiline_alias` over the suffix of the document
starting at the trigger, carrying the absolute index. -/
def rmaGo : List (List Char) → Nat → Nat
  | [], i => i + 1
  | l :: rest, i => if endsSemi l then i + 1 else rmaGo rest (i + 1)

/-- Source's `remove_multiline_alias`: the index just after the first
line, from `start` on, whose right-stripped text ends with a semicolon
(one past the document length when there is none). -/
def remove_multiline_alias (lines : List (List Char)) (start : Nat) : Nat :=
  rmaGo (lines.drop start) start

/-- Loop of `find_block_end`, carrying the absolute index, the running
depth and the found-an-opening-brace flag. -/
def fbeGo : List (List Char) → Nat → Int → Bool → Nat
  | [], i, _, _ => i
  | l :: rest, i, depth, found =>
    if found || l.count openBrace != 0 then
      if depth + (l.count openBrace : Int) - (l.count closeBrace : Int) ≤ 0 then i + 1
      else fbeGo rest (i + 1) (depth + (l.count openBrace : Int) - (l.count closeBrace : Int)) true
    else fbeGo rest (i + 1) depth found

/-- Source's `find_block_end`: the index just after the line on which the
running brace count, accumulated per line from the first line at or after
`start` containing an opening brace, returns to zero or below (the
document length when that never happens). -/
def find_block_end (lines : List (List Char)) (start : Nat) : Nat :=
  fbeGo (lines.drop start) start 0 false

/-- Per-line brace balance: opening-brace count minus closing-brace count. -/
def lineDelta (l : List Char) : Int :=
  (l.count openBrace : Int) - (l.count closeBrace : Int)

/-- Sum of the per-line brace balances of the first `t` lines of `ls`. -/
def psum (ls : List (List Char)) (t : Nat) : Int :=
  ((ls.take t).map lineDelta).sum

/-- Running brace count of the document over lines `f` through `j`
inclusive. -/
def braceRun (L : List (List Char)) (f j : Nat) : Int :=
  psum (L.drop f) (j + 1 - f)

/-- Scanning loop of `process_lines` with an explicit fuel argument; each
step consumes at least one line index, so fuel equal to the number of
remaining lines always suffices. -/
def processAux (L : List (List Char)) : Nat → Nat → List (List Char)
  | 0, _ => []
  | fuel + 1, i =>
    if i < L.length then
      (if matchAliasTrigger (L.getD i []) then
        processAux L fuel (remove_multiline_alias L i)
      else if is_sourced_test_case_multiline L i then
        processAux L fuel (find_block_end L i)
      else if is_sourced_section (L.getD i []) then
        processAux L fuel (find_block_end L i)
      else if matchStaticRequire (L.getD i []) then
        processAux L fuel (i + 1)
      else if matchMaybeUnused (L.getD i []) then
        processAux L fuel (i + 1)
      else rule6Rewrite (L.getD i []) :: processAux L fuel (i + 1))
    else []

/-- Scan of the source's `process_lines` starting at line index `i`. -/
def procFrom (L : List (List Char)) (i : Nat) : List (List Char) :=
  processAux L (L.length - i) i

/-- Source's `process_lines`: the full transformer over a document. -/
def process_lines (L : List (List Char)) : List (List Char) :=
  procFrom L 0

/-- Do any of the removal rules 1 through 5 trigger at line `i`? -/
def triggersAt (L : List (List Char)) (i : Nat) : Bool :=
  matchAliasTrigger (L.getD i []) || is_sourced_test_case_multiline L i
  || is_sourced_section (L.getD i []) || matchStaticRequire (L.getD i [])
  || matchMaybeUnused (L.getD i [])

/-- Does either branch of rule 6 apply to the line? -/
def rule6Hits (l : List Char) : Bool :=
  containsSeq commaFF l || beginsWith contFF (l.dropWhile isSpaceChar)

/-- Does any trigger pattern of rules 1 through 6 fire at line `i`? -/
def triggersAny (L : List (List Char)) (i : Nat) : Bool :=
  triggersAt L i || rule6Hits (L.getD i [])

/-- Line-break characters of Python's splitlines restricted to the
character set representable here. -/
def isLineBreakChar (c : Char) : Bool :=
  c == '\n' || c == '\r' || c == '\x0b' || c == '\x0c' || c == '\x1c'
  || c == '\x1d' || c == '\x1e' || c == '\x85' || c == '\u2028' || c == '\u2029'

/-- Python's splitlines with keepends, accumulating the current line in
reverse; a carriage return followed by a newline is a single terminator. -/
def splitAux : List Char → List Char → List (List Char)
  | [], acc => if acc.isEmpty then [] else [acc.reverse]
  | '\r' :: '\n' :: rest, acc => (acc.reverse ++ ['\r', '\n']) :: splitAux rest []
  | c :: rest, acc =>
    if isLineBreakChar c then (acc.reverse ++ [c]) :: splitAux rest []
    else splitAux rest (c :: acc)
  termination_by s _ => s.length

/-- Split file content into newline-preserving lines. -/
def splitLinesKeepEnds (content : List Char) : List (List Char) :=
  splitAux content []

/-- Source's `process_file`, with its file effects made explicit: given
the preview flag and the file content, return the reported changed flag
and the content written back, if any (`none` models that the file is
never opened for writing). -/
def process_file (dry_run : Bool) (content : List Char) : Bool × Option (List Char) :=
  let lines := splitLinesKeepEnds content
  let new_content := (process_lines lines).flatten
  if new_content = content then (false, none)
  else (true, if dry_run then none else some new_content)

/-- Per-path outcome reported by the command-line driver. -/
inductive MainEvent where
  | skip (p : List Char)
  | processed (p : List Char)
deriving DecidableEq, Repr

/-- Leading characters marking a command-line flag. -/
def dashDash : List Char := "--".toList

/-- The file paths of the argument list: the arguments not starting with
two dashes. -/
def mainPaths (args : List (List Char)) : List (List Char) :=
  args.filter (fun p => !(beginsWith dashDash p))

/-- Source's `main`, with its effects made explicit: given the argument
list (everything after the program name) and the file-existence
predicate, return the process exit status and the ordered per-path
outcomes (a missing path is skipped, any other is processed). -/
def main (args : List (List Char)) (ex : List Char → Bool) : Nat × List MainEvent :=
  if (mainPaths args).isEmpty then (1, [])
  else (0, (mainPaths args).map
    (fun p => if ex p then MainEvent.processed p else MainEvent.skip p))

/-! Helper lemmas about the primitive scanners. -/

theorem beginsWith_iff (p : List Char) : ∀ s, beginsWith p s = true ↔ ∃ t, s = p ++ t := by
  induction p with
  | nil => intro s; simp [beginsWith]
  | cons c cs ih =>
    intro s
    cases s with
    | nil => simp [beginsWith]
    | cons d ds =>
      simp only [beginsWith, Bool.and_eq_true, beq_iff_eq, ih ds, List.cons_append,
        List.cons.injEq]
      constructor
      · rintro ⟨h1, t, h2⟩; exact ⟨t, h1.symm, h2⟩
      · rintro ⟨t, h1, h2⟩; exact ⟨h1.symm, t, h2⟩

theorem containsSeq_iff (p : List Char) (hp : p ≠ []) :
    ∀ s, containsSeq p s = true ↔ ∃ a b, s = a ++ p ++ b := by
  intro s
  induction s with
  | nil =>
    simp only [containsSeq, List.isEmpty_iff]
    constructor
    · intro h; exact absurd h hp
    · rintro ⟨a, b, h⟩
      rcases List.append_eq_nil.mp h.symm with ⟨h1, -⟩
      rcases List.append_eq_nil.mp h1 with ⟨-, h2⟩
      exact absurd h2 hp
  | cons c cs ih =>
    simp only [containsSeq, Bool.or_eq_true, beginsWith_iff, ih]
    constructor
    · rintro (⟨t, ht⟩ | ⟨a, b, h⟩)
      · exact ⟨[], t, by simp [ht]⟩
      · exact ⟨c :: a, b, by simp [h]⟩
    · rintro ⟨a, b, h⟩
      cases a with
      | nil => exact Or.inl ⟨b, by simpa using h⟩
      | cons a0 as =>
        right
        rcases List.cons.injEq .. ▸ h with ⟨-, h2⟩
        exact ⟨as, b, h2⟩

theorem rule6Rewrite_id (l : List Char) (h : rule6Hits l = false) : rule6Rewrite l = l := by
  rcases Bool.or_eq_false_iff.mp h with ⟨h1, h2⟩
  unfold rule6Rewrite
  rw [h1, h2]
  simp

/-! Index bridging between a document and its windows. -/

theorem getD_drop (L : List (List Char)) (s m : Nat) :
    (L.drop s).getD m [] = L.getD (s + m) [] := by
  rw [List.getD_eq_getElem?_getD, List.getD_eq_getElem?_getD, List.getElem?_drop]

theorem getD_take (L : List (List Char)) (t m : Nat) (hm : m < t) :
    (L.take t).getD m [] = L.getD m [] := by
  rw [List.getD_eq_getElem?_getD, List.getD_eq_getElem?_getD, List.getElem?_take]
  simp [hm]

theorem getD_drop_take (L : List (List Char)) (s t m : Nat) (hm : m < t) :
    ((L.drop s).take t).getD m [] = L.getD (s + m) [] := by
  rw [getD_take _ _ _ hm, getD_drop]

theorem drop_cons_getD (L : List (List Char)) (i : Nat) (h : i < L.length) :
    L.drop i = L.getD i [] :: L.drop (i + 1) := by
  rw [List.getD_eq_getElem _ _ h]
  exact List.drop_eq_getElem_cons h

/-! Lemmas about the loop of `remove_multiline_alias`. -/

theorem rmaGo_ge : ∀ (ls : List (List Char)) (i : Nat), i + 1 ≤ rmaGo ls i := by
  intro ls
  induction ls with
  | nil => intro i; simp [rmaGo]
  | cons l rest ih =>
    intro i
    unfold rmaGo
    split
    · exact Nat.le_refl _
    · exact Nat.le_trans (by omega) (ih (i + 1))

theorem rmaGo_found : ∀ (ls : List (List Char)) (i j : Nat), j < ls.length →
    endsSemi (ls.getD j []) = true → (∀ k, k < j → endsSemi (ls.getD k []) = false) →
    rmaGo ls i = i + j + 1 := by
  intro ls
  induction ls with
  | nil => intro i j hj; simp at hj
  | cons l rest ih =>
    intro i j hj hsemi hmin
    unfold rmaGo
    by_cases hl : endsSemi l = true
    · have hj0 : j = 0 := by
        by_contra hne
        have := hmin 0 (by omega)
        simp [List.getD] at this
        exact absurd hl (by simp [this])
      rw [if_pos hl]
      omega
    · have hj0 : j ≠ 0 := by
        intro h0
        subst h0
        simp [List.getD] at hsemi
        exact hl hsemi
      obtain ⟨j', rfl⟩ : ∃ j', j = j' + 1 := ⟨j - 1, by omega⟩
      rw [if_neg hl]
      have := ih (i + 1) j' (by simpa using hj) (by simpa [List.getD] using hsemi)
        (fun k hk => by simpa [List.getD] using hmin (k + 1) (by omega))
      omega

theorem rmaGo_none : ∀ (ls : List (List Char)) (i : Nat),
    (∀ k, k < ls.length → endsSemi (ls.getD k []) = false) →
    rmaGo ls i = i + ls.length + 1 := by
  intro ls
  induction ls with
  | nil => intro i _; simp [rmaGo]
  | cons l rest ih =>
    intro i hall
    unfold rmaGo
    have hl : endsSemi l = false := by simpa [List.getD] using hall 0 (by simp)
    rw [if_neg (by simp [hl])]
    have := ih (i + 1) (fun k hk => by simpa [List.getD] using hall (k + 1) (by simpa using hk))
    simp only [List.length_cons]
    omega

/-! Lemmas about the loop of `find_block_end`. -/

theorem fbeGo_cons (l : List Char) (rest : List (List Char)) (i : Nat) (depth : Int)
    (found : Bool) :
    fbeGo (l :: rest) i depth found =
      if found || l.count openBrace != 0 then
        if depth + (l.count openBrace : Int) - (l.count closeBrace : Int) ≤ 0 then i + 1
        else fbeGo rest (i + 1) (depth + (l.count openBrace : Int) - (l.count closeBrace : Int)) true
      else fbeGo rest (i + 1) depth found := rfl


theorem fbeGo_ge : ∀ (ls : List (List Char)) (i : Nat) (d : Int) (fd : Bool),
    i ≤ fbeGo ls i d fd := by
  intro ls
  induction ls with
  | nil => intro i d fd; simp [fbeGo]
  | cons l rest ih =>
    intro i d fd
    unfold fbeGo
    split
    · split
      · omega
      · exact Nat.le_trans (by omega) (ih (i + 1) _ _)
    · exact Nat.le_trans (by omega) (ih (i + 1) _ _)

theorem fbeGo_ge_cons (l : List Char) (rest : List (List Char)) (i : Nat) (d : Int) (fd : Bool) :
    i + 1 ≤ fbeGo (l :: rest) i d fd := by
  unfold fbeGo
  split
  · split
    · omega
    · exact Nat.le_trans (by omega) (fbeGo_ge rest (i + 1) _ _)
  · exact Nat.le_trans (by omega) (fbeGo_ge rest (i + 1) _ _)

theorem fbeGo_noOpen : ∀ (ls : List (List Char)) (i : Nat),
    (∀ k, k < ls.length → (ls.getD k []).count openBrace = 0) →
    fbeGo ls i 0 false = i + ls.length := by
  intro ls
  induction ls with
  | nil => intro i _; simp [fbeGo]
  | cons l rest ih =>
    intro i hall
    have hl : l.count openBrace = 0 := by simpa [List.getD] using hall 0 (by simp)
    unfold fbeGo
    rw [if_neg (by simp [hl])]
    have := ih (i + 1) (fun k hk => by simpa [List.getD] using hall (k + 1) (by simpa using hk))
    simp only [List.length_cons]
    omega

theorem psum_zero (ls : List (List Char)) : psum ls 0 = 0 := by simp [psum]

theorem psum_cons_succ (l : List Char) (rest : List (List Char)) (t : Nat) :
    psum (l :: rest) (t + 1) = lineDelta l + psum rest t := by
  simp [psum, List.take_succ_cons]

theorem fbeGo_depth : ∀ (ls : List (List Char)) (i : Nat) (d : Int) (m : Nat),
    m < ls.length → (∀ m', m' < m → 0 < d + psum ls (m' + 1)) →
    d + psum ls (m + 1) ≤ 0 → fbeGo ls i d true = i + m + 1 := by
  intro ls
  induction ls with
  | nil => intro i d m hm; simp at hm
  | cons l rest ih =>
    intro i d m hm hpos hle
    unfold fbeGo
    rw [if_pos (by simp)]
    have hdelta : d + (l.count openBrace : Int) - (l.count closeBrace : Int)
        = d + psum (l :: rest) 1 := by
      rw [psum_cons_succ, psum_zero]
      unfold lineDelta
      ring
    cases m with
    | zero =>
      rw [if_pos (by rw [hdelta]; exact hle)]
    | succ m' =>
      have h0 : 0 < d + psum (l :: rest) 1 := hpos 0 (by omega)
      rw [if_neg (by rw [hdelta]; omega)]
      have hrec := ih (i + 1) (d + lineDelta l) m' (by simpa using hm)
        (fun k hk => by
          have := hpos (k + 1) (by omega)
          rw [psum_cons_succ] at this
          omega)
        (by
          rw [psum_cons_succ] at hle
          omega)
      have harg : d + (l.count openBrace : Int) - (l.count closeBrace : Int)
          = d + lineDelta l := by unfold lineDelta; ring
      rw [harg, hrec]
      omega

/-! Characterizations of the block and alias scans on whole documents. -/

theorem remove_multiline_alias_ge (L : List (List Char)) (i : Nat) :
    i + 1 ≤ remove_multiline_alias L i :=
  rmaGo_ge (L.drop i) i

theorem find_block_end_ge (L : List (List Char)) (i : Nat) (h : i < L.length) :
    i + 1 ≤ find_block_end L i := by
  unfold find_block_end
  rw [drop_cons_getD L i h]
  exact fbeGo_ge_cons _ _ _ _ _

theorem remove_multiline_alias_found (L : List (List Char)) (start j : Nat)
    (hj : j < L.length) (hsj : start ≤ j) (hsemi : endsSemi (L.getD j []) = true)
    (hmin : ∀ k, k < j → start ≤ k → endsSemi (L.getD k []) = false) :
    remove_multiline_alias L start = j + 1 := by
  unfold remove_multiline_alias
  have hlt : j - start < (L.drop start).length := by simp [List.length_drop]; omega
  have hsemi' : endsSemi ((L.drop start).getD (j - start) []) = true := by
    rw [getD_drop]
    have : start + (j - start) = j := by omega
    rw [this]; exact hsemi
  have hmin' : ∀ k, k < j - start → endsSemi ((L.drop start).getD k []) = false := by
    intro k hk
    rw [getD_drop]
    exact hmin (start + k) (by omega) (by omega)
  rw [rmaGo_found (L.drop start) start (j - start) hlt hsemi' hmin']
  omega

theorem remove_multiline_alias_none (L : List (List Char)) (start : Nat)
    (hs : start ≤ L.length)
    (hno : ∀ k, k < L.length → start ≤ k → endsSemi (L.getD k []) = false) :
    remove_multiline_alias L start = L.length + 1 := by
  unfold remove_multiline_alias
  rw [rmaGo_none (L.drop start) start]
  · simp [List.length_drop]; omega
  · intro k hk
    rw [getD_drop]
    simp [List.length_drop] at hk
    exact hno (start + k) (by omega) (by omega)

theorem find_block_end_noOpen (L : List (List Char)) (start : Nat)
    (hs : start ≤ L.length)
    (hno : ∀ k, k < L.length → start ≤ k → (L.getD k []).count openBrace = 0) :
    find_block_end L start = L.length := by
  unfold find_block_end
  rw [fbeGo_noOpen (L.drop start) start]
  · simp [List.length_drop]; omega
  · intro k hk
    rw [getD_drop]
    simp [List.length_drop] at hk
    exact hno (start + k) (by omega) (by omega)

theorem fbeGo_skipTo : ∀ (n : Nat) (L : List (List Char)) (start f : Nat),
    f - start = n → start ≤ f → f ≤ L.length →
    (∀ k, k < f → start ≤ k → (L.getD k []).count openBrace = 0) →
    fbeGo (L.drop start) start 0 false = fbeGo (L.drop f) f 0 false := by
  intro n
  induction n with
  | zero =>
    intro L start f h1 h2 _ _
    have : start = f := by omega
    subst this
    rfl
  | succ n ih =>
    intro L start f h1 h2 h3 hno
    have hsl : start < L.length := by omega
    have hopen : (L.getD start []).count openBrace = 0 := hno start (by omega) (Nat.le_refl _)
    rw [List.getD_eq_getElem?_getD] at hopen
    rw [drop_cons_getD L start hsl]
    rw [fbeGo_cons, if_neg (by simp [hopen])]
    exact ih L (start + 1) f (by omega) (by omega) h3 (fun k hk hk2 => hno k hk (by omega))

theorem find_block_end_eq (L : List (List Char)) (start f j : Nat)
    (hsf : start ≤ f) (hf : f < L.length)
    (hno : ∀ k, k < f → start ≤ k → (L.getD k []).count openBrace = 0)
    (hopen : (L.getD f []).count openBrace ≠ 0)
    (hfj : f ≤ j) (hj : j < L.length)
    (hmin : ∀ p, p < j → f ≤ p → 0 < braceRun L f p)
    (hend : braceRun L f j ≤ 0) :
    find_block_end L start = j + 1 := by
  unfold find_block_end
  rw [fbeGo_skipTo (f - start) L start f rfl hsf (Nat.le_of_lt hf) hno]
  have hdelta : lineDelta (L.getD f []) = braceRun L f f := by
    unfold braceRun
    have h1 : f + 1 - f = 1 := by omega
    rw [h1, drop_cons_getD L f hf, psum_cons_succ, psum_zero]
    ring
  rw [drop_cons_getD L f hf, fbeGo_cons,
    if_pos (by simp only [Bool.false_or, bne_iff_ne]; exact hopen)]
  have hshape : (0 : Int) + ((L.getD f []).count openBrace : Int)
      - ((L.getD f []).count closeBrace : Int) = braceRun L f f := by
    rw [← hdelta]; unfold lineDelta; ring
  by_cases hjf : j = f
  · subst hjf
    rw [if_pos (by rw [hshape]; exact hend)]
  · have hfj' : f < j := by omega
    have h0 : 0 < braceRun L f f := hmin f hfj' (Nat.le_refl f)
    rw [if_neg (by rw [hshape]; omega)]
    have hlen : j - f - 1 < (L.drop (f + 1)).length := by simp [List.length_drop]; omega
    have hbr : ∀ q, f < q → q ≤ j →
        braceRun L f q = lineDelta (L.getD f []) + psum (L.drop (f + 1)) (q - f) := by
      intro q hq1 _
      unfold braceRun
      have h2 : q + 1 - f = (q - f - 1 + 1) + 1 := by omega
      rw [h2, drop_cons_getD L f hf, psum_cons_succ]
      have h3 : q - f - 1 + 1 = q - f := by omega
      rw [h3]
    have hpos2 : ∀ m', m' < j - f - 1 →
        0 < (0 : Int) + ((L.getD f []).count openBrace : Int)
          - ((L.getD f []).count closeBrace : Int) + psum (L.drop (f + 1)) (m' + 1) := by
      intro m' hm'
      have hb := hmin (f + 1 + m') (by omega) (by omega)
      have he := hbr (f + 1 + m') (by omega) (by omega)
      have h4 : f + 1 + m' - f = m' + 1 := by omega
      rw [h4] at he
      rw [hshape, ← hdelta]
      omega
    have hle2 : (0 : Int) + ((L.getD f []).count openBrace : Int)
        - ((L.getD f []).count closeBrace : Int) + psum (L.drop (f + 1)) (j - f - 1 + 1) ≤ 0 := by
      have he := hbr j hfj' (Nat.le_refl j)
      have h4 : j - f - 1 + 1 = j - f := by omega
      rw [h4, hshape, ← hdelta]
      omega
    rw [fbeGo_depth (L.drop (f + 1)) (f + 1) _ (j - f - 1) hlen hpos2 hle2]
    omega

/-! Fuel irrelevance and step equations for the scan of `process_lines`. -/

theorem processAux_succ (L : List (List Char)) (fuel i : Nat) :
    processAux L (fuel + 1) i =
      if i < L.length then
        (if matchAliasTrigger (L.getD i []) then
          processAux L fuel (remove_multiline_alias L i)
        else if is_sourced_test_case_multiline L i then
          processAux L fuel (find_block_end L i)
        else if is_sourced_section (L.getD i []) then
          processAux L fuel (find_block_end L i)
        else if matchStaticRequire (L.getD i []) then
          processAux L fuel (i + 1)
        else if matchMaybeUnused (L.getD i []) then
          processAux L fuel (i + 1)
        else rule6Rewrite (L.getD i []) :: processAux L fuel (i + 1))
      else [] := rfl

theorem processAux_zero (L : List (List Char)) (i : Nat) : processAux L 0 i = [] := rfl

theorem processAux_fuel_irrel : ∀ (f1 : Nat) (L : List (List Char)) (f2 i : Nat),
    L.length ≤ i + f1 → L.length ≤ i + f2 → processAux L f1 i = processAux L f2 i := by
  intro f1
  induction f1 with
  | zero =>
    intro L f2 i h1 _
    cases f2 with
    | zero => rfl
    | succ f2' =>
      rw [processAux_zero, processAux_succ, if_neg (by omega)]
  | succ f1' ih =>
    intro L f2 i h1 h2
    cases f2 with
    | zero =>
      rw [processAux_zero, processAux_succ, if_neg (by omega)]
    | succ f2' =>
      rw [processAux_succ, processAux_succ]
      by_cases hi : i < L.length
      · rw [if_pos hi, if_pos hi]
        have hrma := rmaGo_ge (L.drop i) i
        have hfbe := find_block_end_ge L i hi
        split_ifs with hc1 hc2 hc3 hc4 hc5
        · exact ih L f2' _ (by unfold remove_multiline_alias; omega) (by unfold remove_multiline_alias; omega)
        · exact ih L f2' _ (by omega) (by omega)
        · exact ih L f2' _ (by omega) (by omega)
        · exact ih L f2' _ (by omega) (by omega)
        · exact ih L f2' _ (by omega) (by omega)
        · rw [ih L f2' (i + 1) (by omega) (by omega)]
      · rw [if_neg hi, if_neg hi]

theorem procFrom_stop (L : List (List Char)) (i : Nat) (h : L.length ≤ i) :
    procFrom L i = [] := by
  unfold procFrom
  have h0 : L.length - i = 0 := by omega
  rw [h0]
  rfl

theorem procFrom_rule1 (L : List (List Char)) (i : Nat) (hi : i < L.length)
    (h1 : matchAliasTrigger (L.getD i []) = true) :
    procFrom L i = procFrom L (remove_multiline_alias L i) := by
  unfold procFrom
  have hsplit : L.length - i = (L.length - i - 1) + 1 := by omega
  rw [hsplit, processAux_succ]
  rw [if_pos hi, if_pos h1]
  have hge := remove_multiline_alias_ge L i
  exact processAux_fuel_irrel _ L _ _ (by omega) (by omega)

theorem procFrom_rule2 (L : List (List Char)) (i : Nat) (hi : i < L.length)
    (h1 : matchAliasTrigger (L.getD i []) = false)
    (h2 : is_sourced_test_case_multiline L i = true) :
    procFrom L i = procFrom L (find_block_end L i) := by
  unfold procFrom
  have hsplit : L.length - i = (L.length - i - 1) + 1 := by omega
  rw [hsplit, processAux_succ]
  rw [if_pos hi, if_neg (by simp only [h1]; exact Bool.false_ne_true), if_pos h2]
  have hge := find_block_end_ge L i hi
  exact processAux_fuel_irrel _ L _ _ (by omega) (by omega)

theorem procFrom_rule3 (L : List (List Char)) (i : Nat) (hi : i < L.length)
    (h1 : matchAliasTrigger (L.getD i []) = false)
    (h2 : is_sourced_test_case_multiline L i = false)
    (h3 : is_sourced_section (L.getD i []) = true) :
    procFrom L i = procFrom L (find_block_end L i) := by
  unfold procFrom
  have hsplit : L.length - i = (L.length - i - 1) + 1 := by omega
  rw [hsplit, processAux_succ]
  rw [if_pos hi, if_neg (by simp only [h1]; exact Bool.false_ne_true), if_neg (by simp only [h2]; exact Bool.false_ne_true), if_pos h3]
  have hge := find_block_end_ge L i hi
  exact processAux_fuel_irrel _ L _ _ (by omega) (by omega)

theorem procFrom_rule4 (L : List (List Char)) (i : Nat) (hi : i < L.length)
    (h1 : matchAliasTrigger (L.getD i []) = false)
    (h2 : is_sourced_test_case_multiline L i = false)
    (h3 : is_sourced_section (L.getD i []) = false)
    (h4 : matchStaticRequire (L.getD i []) = true) :
    procFrom L i = procFrom L (i + 1) := by
  unfold procFrom
  have hsplit : L.length - i = (L.length - i - 1) + 1 := by omega
  rw [hsplit, processAux_succ]
  rw [if_pos hi, if_neg (by simp only [h1]; exact Bool.false_ne_true), if_neg (by simp only [h2]; exact Bool.false_ne_true), if_neg (by simp only [h3]; exact Bool.false_ne_true),
    if_pos h4]
  exact processAux_fuel_irrel _ L _ _ (by omega) (by omega)

theorem procFrom_rule5 (L : List (List Char)) (i : Nat) (hi : i < L.length)
    (h1 : matchAliasTrigger (L.getD i []) = false)
    (h2 : is_sourced_test_case_multiline L i = false)
    (h3 : is_sourced_section (L.getD i []) = false)
    (h4 : matchStaticRequire (L.getD i []) = false)
    (h5 : matchMaybeUnused (L.getD i []) = true) :
    procFrom L i = procFrom L (i + 1) := by
  unfold procFrom
  have hsplit : L.length - i = (L.length - i - 1) + 1 := by omega
  rw [hsplit, processAux_succ]
  rw [if_pos hi, if_neg (by simp only [h1]; exact Bool.false_ne_true), if_neg (by simp only [h2]; exact Bool.false_ne_true), if_neg (by simp only [h3]; exact Bool.false_ne_true),
    if_neg (by simp only [h4]; exact Bool.false_ne_true), if_pos h5]
  exact processAux_fuel_irrel _ L _ _ (by omega) (by omega)

theorem procFrom_noTrigger (L : List (List Char)) (i : Nat) (hi : i < L.length)
    (ht : triggersAt L i = false) :
    procFrom L i = rule6Rewrite (L.getD i []) :: procFrom L (i + 1) := by
  have h1 : matchAliasTrigger (L.getD i []) = false := by
    unfold triggersAt at ht
    rcases Bool.or_eq_false_iff.mp ht with ⟨h, -⟩
    rcases Bool.or_eq_false_iff.mp h with ⟨h, -⟩
    rcases Bool.or_eq_false_iff.mp h with ⟨h, -⟩
    exact (Bool.or_eq_false_iff.mp h).1
  have h2 : is_sourced_test_case_multiline L i = false := by
    unfold triggersAt at ht
    rcases Bool.or_eq_false_iff.mp ht with ⟨h, -⟩
    rcases Bool.or_eq_false_iff.mp h with ⟨h, -⟩
    rcases Bool.or_eq_false_iff.mp h with ⟨h, -⟩
    exact (Bool.or_eq_false_iff.mp h).2
  have h3 : is_sourced_section (L.getD i []) = false := by
    unfold triggersAt at ht
    rcases Bool.or_eq_false_iff.mp ht with ⟨h, -⟩
    rcases Bool.or_eq_false_iff.mp h with ⟨h, -⟩
    exact (Bool.or_eq_false_iff.mp h).2
  have h4 : matchStaticRequire (L.getD i []) = false := by
    unfold triggersAt at ht
    rcases Bool.or_eq_false_iff.mp ht with ⟨h, -⟩
    exact (Bool.or_eq_false_iff.mp h).2
  have h5 : matchMaybeUnused (L.getD i []) = false := by
    unfold triggersAt at ht
    exact (Bool.or_eq_false_iff.mp ht).2
  unfold procFrom
  have hsplit : L.length - i = (L.length - i - 1) + 1 := by omega
  rw [hsplit, processAux_succ]
  rw [if_pos hi, if_neg (by simp only [h1]; exact Bool.false_ne_true), if_neg (by simp only [h2]; exact Bool.false_ne_true), if_neg (by simp only [h3]; exact Bool.false_ne_true),
    if_neg (by simp only [h4]; exact Bool.false_ne_true), if_neg (by simp only [h5]; exact Bool.false_ne_true)]
  rw [processAux_fuel_irrel _ L (L.length - (i + 1)) (i + 1) (by omega) (by omega)]

theorem bool_not_true {b : Bool} (h : ¬b = true) : b = false := by
  cases b
  · rfl
  · exact absurd rfl h

/-! Pass-through of untriggered regions, and the subsequence shape of the
output. -/

theorem procFrom_app : ∀ (n : Nat) (L : List (List Char)) (i m : Nat), m - i = n →
    i ≤ m → m ≤ L.length → (∀ k, i ≤ k → k < m → triggersAny L k = false) →
    procFrom L i = (L.drop i).take (m - i) ++ procFrom L m := by
  intro n
  induction n with
  | zero =>
    intro L i m h1 h2 _ _
    have : i = m := by omega
    subst this
    simp
  | succ n ih =>
    intro L i m h1 h2 h3 hno
    have hi : i < L.length := by omega
    have ht : triggersAny L i = false := hno i (Nat.le_refl _) (by omega)
    have htAt : triggersAt L i = false := (Bool.or_eq_false_iff.mp ht).1
    have h6 : rule6Hits (L.getD i []) = false := (Bool.or_eq_false_iff.mp ht).2
    rw [procFrom_noTrigger L i hi htAt, rule6Rewrite_id _ h6]
    rw [ih L (i + 1) m (by omega) (by omega) h3 (fun k hk1 hk2 => hno k (by omega) hk2)]
    rw [drop_cons_getD L i hi]
    have hmi : m - i = (m - (i + 1)) + 1 := by omega
    rw [hmi, List.take_succ_cons]
    simp

theorem process_lines_fixed (L : List (List Char))
    (h : ∀ i, i < L.length → triggersAny L i = false) : process_lines L = L := by
  unfold process_lines
  rw [procFrom_app L.length L 0 L.length (by omega) (by omega) (Nat.le_refl _)
    (fun k _ hk2 => h k hk2)]
  rw [procFrom_stop L L.length (Nat.le_refl _)]
  simp

theorem procFrom_subseq : ∀ (n : Nat) (L : List (List Char)) (i : Nat),
    L.length - i ≤ n →
    ∃ idxs : List Nat, (∀ m ∈ idxs, i ≤ m ∧ m < L.length ∧ triggersAt L m = false) ∧
      List.Chain' (fun a b => a < b) idxs ∧
      procFrom L i = idxs.map (fun k => rule6Rewrite (L.getD k [])) := by
  intro n
  induction n with
  | zero =>
    intro L i h
    exact ⟨[], by simp, by simp, by rw [procFrom_stop L i (by omega)]; simp⟩
  | succ n ih =>
    intro L i h
    by_cases hi : i < L.length
    · by_cases h1 : matchAliasTrigger (L.getD i []) = true
      · have hge := remove_multiline_alias_ge L i
        obtain ⟨idxs, hmem, hch, heq⟩ := ih L (remove_multiline_alias L i) (by omega)
        refine ⟨idxs, fun m hm => ⟨?_, (hmem m hm).2.1, (hmem m hm).2.2⟩, hch, ?_⟩
        · have := (hmem m hm).1; omega
        · rw [procFrom_rule1 L i hi h1]; exact heq
      · have h1' := bool_not_true h1
        by_cases h2 : is_sourced_test_case_multiline L i = true
        · have hge := find_block_end_ge L i hi
          obtain ⟨idxs, hmem, hch, heq⟩ := ih L (find_block_end L i) (by omega)
          refine ⟨idxs, fun m hm => ⟨?_, (hmem m hm).2.1, (hmem m hm).2.2⟩, hch, ?_⟩
          · have := (hmem m hm).1; omega
          · rw [procFrom_rule2 L i hi h1' h2]; exact heq
        · have h2' := bool_not_true h2
          by_cases h3 : is_sourced_section (L.getD i []) = true
          · have hge := find_block_end_ge L i hi
            obtain ⟨idxs, hmem, hch, heq⟩ := ih L (find_block_end L i) (by omega)
            refine ⟨idxs, fun m hm => ⟨?_, (hmem m hm).2.1, (hmem m hm).2.2⟩, hch, ?_⟩
            · have := (hmem m hm).1; omega
            · rw [procFrom_rule3 L i hi h1' h2' h3]; exact heq
          · have h3' := bool_not_true h3
            by_cases h4 : matchStaticRequire (L.getD i []) = true
            · obtain ⟨idxs, hmem, hch, heq⟩ := ih L (i + 1) (by omega)
              refine ⟨idxs, fun m hm => ⟨?_, (hmem m hm).2.1, (hmem m hm).2.2⟩, hch, ?_⟩
              · have := (hmem m hm).1; omega
              · rw [procFrom_rule4 L i hi h1' h2' h3' h4]; exact heq
            · have h4' := bool_not_true h4
              by_cases h5 : matchMaybeUnused (L.getD i []) = true
              · obtain ⟨idxs, hmem, hch, heq⟩ := ih L (i + 1) (by omega)
                refine ⟨idxs, fun m hm => ⟨?_, (hmem m hm).2.1, (hmem m hm).2.2⟩, hch, ?_⟩
                · have := (hmem m hm).1; omega
                · rw [procFrom_rule5 L i hi h1' h2' h3' h4' h5]; exact heq
              · have h5' := bool_not_true h5
                have htAt : triggersAt L i = false := by
                  unfold triggersAt
                  rw [h1', h2', h3', h4', h5']
                  rfl
                obtain ⟨idxs, hmem, hch, heq⟩ := ih L (i + 1) (by omega)
                refine ⟨i :: idxs, ?_, ?_, ?_⟩
                · intro m hm
                  rcases List.mem_cons.mp hm with rfl | hm'
                  · exact ⟨Nat.le_refl _, hi, htAt⟩
                  · refine ⟨?_, (hmem m hm').2.1, (hmem m hm').2.2⟩
                    have := (hmem m hm').1; omega
                · rw [List.chain'_cons']
                  refine ⟨fun b hb => ?_, hch⟩
                  have := (hmem b (List.mem_of_mem_head? hb)).1
                  omega
                · rw [procFrom_noTrigger L i hi htAt]
                  simp [heq]
    · exact ⟨[], by simp, by simp, by rw [procFrom_stop L i (by omega)]; simp⟩

/-! Characterization of the bounded lookahead of rule 2. -/

theorem tcScan_cons (l : List Char) (rest : List (List Char)) (first : Bool) :
    tcScan (l :: rest) first =
      if hasTag l then true
      else if !first && hasParen l then false
      else tcScan rest false := rfl

theorem tcScan_cons_first (l : List Char) (rest : List (List Char)) :
    tcScan (l :: rest) true = (hasTag l || tcScan rest false) := by
  rw [tcScan_cons]
  by_cases h : hasTag l = true
  · simp [h]
  · simp [bool_not_true h]

theorem tcScan_false_iff : ∀ ls : List (List Char), tcScan ls false = true ↔
    ∃ m, m < ls.length ∧ hasTag (ls.getD m []) = true ∧
      ∀ k, k < m → hasParen (ls.getD k []) = false := by
  intro ls
  induction ls with
  | nil => simp [tcScan]
  | cons l rest ih =>
    rw [tcScan_cons]
    by_cases htag : hasTag l = true
    · simp only [htag, if_true]
      constructor
      · intro _
        exact ⟨0, by simp, by simpa [List.getD] using htag, fun k hk => by omega⟩
      · intro _; trivial
    · rw [if_neg (by simp [htag])]
      by_cases hpar : hasParen l = true
      · simp only [Bool.not_false, Bool.true_and, hpar, if_true]
        constructor
        · intro hfalse; exact absurd hfalse (by simp)
        · rintro ⟨m, hm, htg, hks⟩
          cases m with
          | zero => exact absurd (by simpa [List.getD] using htg) (by simp [htag])
          | succ m' =>
            have := hks 0 (by omega)
            simp [List.getD] at this
            rw [this] at hpar
            exact absurd hpar (by simp)
      · rw [if_neg (by simp [bool_not_true hpar])]
        rw [ih]
        constructor
        · rintro ⟨m, hm, htg, hks⟩
          refine ⟨m + 1, by simpa using hm, by simpa [List.getD] using htg, ?_⟩
          intro k hk
          cases k with
          | zero => simpa [List.getD] using bool_not_true hpar
          | succ k' => simpa [List.getD] using hks k' (by omega)
        · rintro ⟨m, hm, htg, hks⟩
          cases m with
          | zero => exact absurd (by simpa [List.getD] using htg) (by simp [htag])
          | succ m' =>
            refine ⟨m', by simpa using hm, by simpa [List.getD] using htg, ?_⟩
            intro k hk
            simpa [List.getD] using hks (k + 1) (by omega)

theorem tcml_iff (L : List (List Char)) (i : Nat) :
    is_sourced_test_case_multiline L i = true ↔
      matchTestCaseDecl (L.getD i []) = true ∧
      ∃ j, j < min (i + 6) L.length ∧ i ≤ j ∧ hasTag (L.getD j []) = true ∧
        ∀ k, k < j → i < k → hasParen (L.getD k []) = false := by
  unfold is_sourced_test_case_multiline
  rw [Bool.and_eq_true]
  refine and_congr_right fun _ => ?_
  by_cases hiL : i < L.length
  · have hsl : (L.drop i).take 6 = L.getD i [] :: ((L.drop (i + 1)).take 5) := by
      rw [drop_cons_getD L i hiL]
      rfl
    rw [hsl, tcScan_cons_first]
    by_cases htag : hasTag (L.getD i []) = true
    · simp only [htag, Bool.true_or]
      constructor
      · intro _
        exact ⟨i, by omega, Nat.le_refl _, htag, fun k _ hik => by omega⟩
      · intro _; trivial
    · rw [bool_not_true htag, Bool.false_or, tcScan_false_iff]
      have hlen : ((L.drop (i + 1)).take 5).length = min 5 (L.length - (i + 1)) := by
        simp [List.length_take, List.length_drop]
      constructor
      · rintro ⟨m, hm, htg, hks⟩
        rw [hlen] at hm
        refine ⟨i + 1 + m, by omega, by omega, ?_, ?_⟩
        · rwa [getD_drop_take _ _ _ _ (by omega)] at htg
        · intro k hk hik
          have hk' : k - (i + 1) < m := by omega
          have := hks (k - (i + 1)) hk'
          rwa [getD_drop_take _ _ _ _ (by omega), show i + 1 + (k - (i + 1)) = k by omega]
            at this
      · rintro ⟨j, hj1, hj2, htg, hks⟩
        have hji : i < j := by
          rcases Nat.lt_or_ge i j with h | h
          · exact h
          · have : j = i := by omega
            subst this
            exact absurd htg htag
        refine ⟨j - (i + 1), ?_, ?_, ?_⟩
        · rw [hlen]; omega
        · rw [getD_drop_take _ _ _ _ (by omega), show i + 1 + (j - (i + 1)) = j by omega]
          exact htg
        · intro k hk
          rw [getD_drop_take _ _ _ _ (by omega)]
          exact hks (i + 1 + k) (by omega) (by omega)
  · have hnil : L.drop i = [] := List.drop_eq_nil_of_le (by omega)
    rw [hnil]
    simp only [List.take_nil, tcScan]
    constructor
    · intro hfalse; exact absurd hfalse (by simp)
    · rintro ⟨j, hj1, hj2, -, -⟩
      omega

/-! Characterization of the rule-6 rewrite. -/

theorem replaceFirstFF_cons (c : Char) (cs : List Char) :
    replaceFirstFF (c :: cs) =
      if beginsWith commaFF (c :: cs) then commaF ++ (c :: cs).drop 15
      else c :: replaceFirstFF cs := rfl

theorem replaceFirstFF_spec : ∀ l : List Char, containsSeq commaFF l = true →
    ∃ a b, l = a ++ commaFF ++ b ∧ replaceFirstFF l = a ++ commaF ++ b ∧
      ∀ a' b', l = a' ++ commaFF ++ b' → a.length ≤ a'.length := by
  intro l
  induction l with
  | nil => intro h; exact absurd h (by decide)
  | cons c cs ih =>
    intro h
    by_cases hb : beginsWith commaFF (c :: cs) = true
    · obtain ⟨t, ht⟩ := (beginsWith_iff _ _).mp hb
      refine ⟨[], t, by simpa using ht, ?_, fun a' b' _ => Nat.zero_le _⟩
      rw [replaceFirstFF_cons, if_pos hb, ht]
      rw [show (15 : Nat) = commaFF.length from rfl, List.drop_left]
      simp
    · have hcs : containsSeq commaFF cs = true := by
        rw [show containsSeq commaFF (c :: cs)
            = (beginsWith commaFF (c :: cs) || containsSeq commaFF cs) from rfl] at h
        rcases Bool.or_eq_true_iff.mp h with h' | h'
        · exact absurd h' hb
        · exact h'
      obtain ⟨a, b, h1, h2, h3⟩ := ih hcs
      refine ⟨c :: a, b, by simp [h1], ?_, ?_⟩
      · rw [replaceFirstFF_cons, if_neg hb, h2]
        simp
      · intro a' b' he
        cases a' with
        | nil =>
          exact absurd ((beginsWith_iff commaFF (c :: cs)).mpr ⟨b', by simpa using he⟩) hb
        | cons c' a'' =>
          have he' : cs = a'' ++ commaFF ++ b' := by
            have h0 : c :: cs = c' :: (a'' ++ (commaFF ++ b')) := by simpa using he
            simpa using (List.cons_eq_cons.mp h0).2
          simpa using Nat.succ_le_succ (h3 a'' b' he')

theorem takeWhile_append_all (p : Char → Bool) :
    ∀ ws s : List Char, (∀ c ∈ ws, p c = true) →
      (ws ++ s).takeWhile p = ws ++ s.takeWhile p := by
  intro ws
  induction ws with
  | nil => intro s _; simp
  | cons w ws' ih =>
    intro s hall
    have hw : p w = true := hall w (by simp)
    simp only [List.cons_append, List.takeWhile_cons, hw, if_true]
    rw [ih s (fun c hc => hall c (by simp [hc]))]

theorem dropWhile_append_all (p : Char → Bool) :
    ∀ ws s : List Char, (∀ c ∈ ws, p c = true) →
      (ws ++ s).dropWhile p = s.dropWhile p := by
  intro ws
  induction ws with
  | nil => intro s _; simp
  | cons w ws' ih =>
    intro s hall
    have hw : p w = true := hall w (by simp)
    simp only [List.cons_append, List.dropWhile_cons, hw, if_true]
    exact ih s (fun c hc => hall c (by simp [hc]))

theorem contFF_expand (r : List Char) :
    contFF ++ r = 'f' :: ("alse, false,".toList ++ r) := rfl

theorem dropWhile_contFF (r : List Char) :
    (contFF ++ r).dropWhile isSpaceChar = contFF ++ r := by
  conv_lhs => rw [contFF_expand]
  rw [List.dropWhile_cons, if_neg (by decide)]
  exact (contFF_expand r).symm

theorem takeWhile_contFF (r : List Char) :
    (contFF ++ r).takeWhile isSpaceChar = [] := by
  conv_lhs => rw [contFF_expand]
  rw [List.takeWhile_cons, if_neg (by decide)]

theorem rule6_inline (l : List Char) (h : containsSeq commaFF l = true) :
    rule6Rewrite l = replaceFirstFF l := by
  unfold rule6Rewrite
  rw [if_pos h]

theorem rule6_cont_spec (ws r : List Char) (hws : ∀ c ∈ ws, isSpaceChar c = true)
    (hnc : containsSeq commaFF (ws ++ (contFF ++ r)) = false) :
    rule6Rewrite (ws ++ (contFF ++ r)) = ws ++ (contF ++ r) := by
  unfold rule6Rewrite
  rw [if_neg (by simp [hnc])]
  rw [dropWhile_append_all _ ws _ hws, dropWhile_contFF]
  rw [if_pos ((beginsWith_iff _ _).mpr ⟨r, rfl⟩)]
  rw [takeWhile_append_all _ ws _ hws, takeWhile_contFF]
  rw [show (13 : Nat) = contFF.length from rfl, List.drop_left]
  simp

theorem process_lines_singleton (l : List Char)
    (h1 : matchAliasTrigger l = false)
    (h2 : is_sourced_test_case_multiline [l] 0 = false)
    (h3 : is_sourced_section l = false)
    (h4 : matchStaticRequire l = false)
    (h5 : matchMaybeUnused l = false) :
    process_lines [l] = [rule6Rewrite l] := by
  have hget : ([l] : List (List Char)).getD 0 [] = l := rfl
  have htAt : triggersAt [l] 0 = false := by
    unfold triggersAt
    rw [hget, h1, h2, h3, h4, h5]
    rfl
  unfold process_lines
  rw [procFrom_noTrigger [l] 0 (by simp) htAt, procFrom_stop [l] 1 (by simp), hget]

/-! Concrete documents used by the claims. -/

/-- Single line on which one rule-6 rewrite re-creates the rule-6 trigger. -/
def c1bad : List (List Char) := [ ", false, false, false, ".toList ]

/-- Trigger-free single-line document. -/
def c1w : List (List Char) := [ "int x;".toList ]

/-- Document with a tagged test case containing nested braces. -/
def c2doc : List (List Char) :=
  [ "int before;".toList,
    "TEST_CASE(\"x\", \"[sourced]\") \x7b".toList,
    "\x7b \x7b \x7d \x7d".toList,
    "\x7d".toList,
    "int after;".toList ]

/-- Expected output for `c2doc`: the tagged block is gone, the
surrounding lines are untouched. -/
def c2out : List (List Char) := [ "int before;".toList, "int after;".toList ]

/-- Document whose tag first appears on the 7th line of the argument
list, beyond the lookahead window. -/
def c3doc : List (List Char) :=
  [ "TEST_CASE(\"seven\",".toList,
    "  int a".toList,
    "  int b".toList,
    "  int c".toList,
    "  int d".toList,
    "  int e".toList,
    "  \"[sourced]\") \x7b".toList,
    "\x7d".toList ]

/-- Two-line alias declaration from the specification's test list. -/
def c4doc : List (List Char) :=
  [ "using Foo_sourced = Bar<".toList, "  1, 2>;".toList ]

/-- Alias declarations in the four casings of the token named by C5. -/
def c5low : List (List Char) := [ "using Foo_sourced = X;".toList ]

/-- First-letter-capitalized casing. -/
def c5cap : List (List Char) := [ "using Foo_Sourced = X;".toList ]

/-- Fully uppercase casing. -/
def c5upper : List (List Char) := [ "using Foo_SOURCED = X;".toList ]

/-- Alternating casing. -/
def c5mixed : List (List Char) := [ "using Foo_sOuRcEd = X;".toList ]

/-- Line of the positional-rewrite example. -/
def c6mk : List Char := "make<Traits<true, false, false, 1>>".toList

/-- Expected rewrite of `c6mk`. -/
def c6mkOut : List Char := "make<Traits<true, false, 1>>".toList

/-- Continuation-line example. -/
def c6cont : List Char := "false, false, Extra>".toList

/-- Expected rewrite of `c6cont`. -/
def c6contOut : List Char := "false, Extra>".toList

/-- Line with two occurrences of the rule-6 pattern. -/
def c6dbl : List Char := "a, false, false, b, false, false, c".toList

/-- Expected rewrite of `c6dbl`: only the first occurrence collapses. -/
def c6dblOut : List Char := "a, false, b, false, false, c".toList

/-- Continuation line with leading whitespace. -/
def c6ws : List Char := "  false, false, x".toList

/-- Expected rewrite of `c6ws`: the whitespace is preserved. -/
def c6wsOut : List Char := "  false, x".toList

/-- Document whose alias declaration is never terminated by a semicolon. -/
def c10alias : List (List Char) :=
  [ "int a;".toList, "using B_sourced = C<".toList, "int d".toList ]

/-- Document whose tagged test case is never followed by a brace. -/
def c10tc : List (List Char) :=
  [ "int a;".toList, "TEST_CASE(\"q\", \"[sourced]\")".toList, "int b".toList ]

/-! The claims. -/

/-- Claim C1, corrected: `process_lines` is idempotent on a document
provided no trigger pattern of rules 1-6 matches any line of its output;
the unconditional statement is false (see the counterexample), because
the rule-6 rewrite can itself produce text that again contains the
rule-6 trigger. -/
theorem claim_C1 (L : List (List Char))
    (h : ∀ i, i < (process_lines L).length → triggersAny (process_lines L) i = false) :
    process_lines (process_lines L) = process_lines L :=
  process_lines_fixed (process_lines L) h

/-- Witness for C1 at a concrete trigger-free document. -/
theorem claim_C1_witness : process_lines (process_lines c1w) = process_lines c1w :=
  claim_C1 c1w (by decide)

/-- Counterexample to C1 as stated: on the single line of `c1bad` the
rule-6 rewrite leaves text that still matches the rule-6 trigger, so a
second run changes the document again. -/
theorem claim_C1_cex : process_lines (process_lines c1bad) ≠ process_lines c1bad := by decide

/-- Claim C2: tagged-block removal is brace-balanced and inclusive. If
`f` is the first line at or after `start` containing an opening brace
and `j` is the first line from `f` on whose running per-line brace count
(`braceRun`) drops to zero or below, then the block scan answers `j + 1`,
so lines `start` through `j` inclusive are removed; and on the concrete
nested-brace document the tagged block disappears while the surrounding
lines survive untouched. -/
theorem claim_C2 (L : List (List Char)) (start f j : Nat)
    (hsf : start ≤ f) (hf : f < L.length)
    (hno : ∀ k, k < f → start ≤ k → (L.getD k []).count openBrace = 0)
    (hopen : (L.getD f []).count openBrace ≠ 0)
    (hfj : f ≤ j) (hj : j < L.length)
    (hmin : ∀ p, p < j → f ≤ p → 0 < braceRun L f p)
    (hend : braceRun L f j ≤ 0) :
    find_block_end L start = j + 1 ∧ process_lines c2doc = c2out :=
  ⟨find_block_end_eq L start f j hsf hf hno hopen hfj hj hmin hend, by decide⟩

/-- Witness for C2 on the nested-brace document: the block opened on
line 1 closes on line 3, nested braces on line 2 notwithstanding. -/
theorem claim_C2_witness : find_block_end c2doc 1 = 4 ∧ process_lines c2doc = c2out :=
  claim_C2 c2doc 1 1 3 (by decide) (by decide) (by decide) (by decide) (by decide)
    (by decide) (by decide) (by decide)

/-- Claim C3: the lookahead trigger fires exactly when the declaration
pattern matches line `i` and the tag occurs at some line `j` within the
6-line window starting at `i`, with no line strictly between the
declaration and `j` containing a closing parenthesis; in particular a
tag first appearing on the 7th line is out of reach, as the concrete
document `c3doc` (left entirely unchanged) shows. -/
theorem claim_C3 :
    (∀ (L : List (List Char)) (i : Nat),
      is_sourced_test_case_multiline L i = true ↔
        matchTestCaseDecl (L.getD i []) = true ∧
        ∃ j, j < min (i + 6) L.length ∧ i ≤ j ∧ hasTag (L.getD j []) = true ∧
          ∀ k, k < j → i < k → hasParen (L.getD k []) = false) ∧
    process_lines c3doc = c3doc :=
  ⟨fun L i => tcml_iff L i, by decide⟩

/-- Claim C4: the alias-removal span runs from the trigger line through
the first line whose right-trimmed text ends with a semicolon,
inclusive; and the two-line alias document transforms to the empty
sequence. -/
theorem claim_C4 (L : List (List Char)) (start j : Nat)
    (hj : j < L.length) (hsj : start ≤ j)
    (hsemi : endsSemi (L.getD j []) = true)
    (hmin : ∀ k, k < j → start ≤ k → endsSemi (L.getD k []) = false) :
    remove_multiline_alias L start = j + 1 ∧ process_lines c4doc = [] :=
  ⟨remove_multiline_alias_found L start j hj hsj hsemi hmin, by decide⟩

/-- Witness for C4 on the two-line alias document. -/
theorem claim_C4_witness : remove_multiline_alias c4doc 0 = 2 ∧ process_lines c4doc = [] :=
  claim_C4 c4doc 0 1 (by decide) (by decide) (by decide) (by decide)

/-- Claim C5, corrected: the alias trigger is not fully
case-insensitive. Only the first letter of the token may vary
(sourced/Sourced, the regex class [Ss] followed by the lowercase
literal); Foo_SOURCED and Foo_sOuRcEd do not trigger and their lines
pass through unchanged, while Foo_sourced and Foo_Sourced are deleted. -/
theorem claim_C5 :
    process_lines c5low = [] ∧ process_lines c5cap = [] ∧
    process_lines c5upper = c5upper ∧ process_lines c5mixed = c5mixed := by decide

/-- Counterexample to C5 as stated: the fully-uppercase variant does not
start a deletion, so its document does not transform to the empty
sequence the way `c5low` does. -/
theorem claim_C5_cex : ¬process_lines c5upper = [] := by decide

/-- Claim C6: positional-argument rewrite. A surviving line (one
triggering none of rules 1-5) is rewritten exactly by rule 6; the inline
case replaces precisely the leftmost occurrence of the
two-consecutive-false pattern; the continuation case rewrites the prefix
after optional leading whitespace, preserving that whitespace; at most
one substitution happens (the two-occurrence line `c6dbl` keeps its
second occurrence); and the two concrete examples of the specification
rewrite as stated. -/
theorem claim_C6 :
    (∀ l : List Char,
      matchAliasTrigger l = false → is_sourced_test_case_multiline [l] 0 = false →
      is_sourced_section l = false → matchStaticRequire l = false →
      matchMaybeUnused l = false →
      process_lines [l] = [rule6Rewrite l]) ∧
    (∀ l : List Char, containsSeq commaFF l = true →
      rule6Rewrite l = replaceFirstFF l ∧
      ∃ a b, l = a ++ commaFF ++ b ∧ replaceFirstFF l = a ++ commaF ++ b ∧
        ∀ a' b', l = a' ++ commaFF ++ b' → a.length ≤ a'.length) ∧
    (∀ ws r : List Char, (∀ c ∈ ws, isSpaceChar c = true) →
      containsSeq commaFF (ws ++ (contFF ++ r)) = false →
      rule6Rewrite (ws ++ (contFF ++ r)) = ws ++ (contF ++ r)) ∧
    (∀ l : List Char, rule6Hits l = false → rule6Rewrite l = l) ∧
    process_lines [c6mk] = [c6mkOut] ∧ process_lines [c6cont] = [c6contOut] ∧
    rule6Rewrite c6dbl = c6dblOut ∧ rule6Rewrite c6ws = c6wsOut :=
  ⟨process_lines_singleton,
   fun l h => ⟨rule6_inline l h, replaceFirstFF_spec l h⟩,
   rule6_cont_spec,
   rule6Rewrite_id,
   by decide, by decide, by decide, by decide⟩

/-- Witness for C6: the general parts applied at the concrete
specification examples. -/
theorem claim_C6_witness :
    process_lines [c6mk] = [rule6Rewrite c6mk] ∧
    rule6Rewrite c6dbl = replaceFirstFF c6dbl :=
  ⟨claim_C6.1 c6mk (by decide) (by decide) (by decide) (by decide) (by decide),
   (claim_C6.2.1 c6dbl (by decide)).1⟩

/-- Claim C7: order preservation and pass-through. The output of
`process_lines` is the image, under the rule-6 rewrite, of a strictly
increasing list of surviving line indices (so deleted spans vanish
without placeholders and relative order is preserved), every surviving
index triggers none of the removal rules 1-5, and a line that rule 6
does not match is reproduced byte-for-byte, terminator included. -/
theorem claim_C7 (L : List (List Char)) :
    ∃ idxs : List Nat, List.Chain' (fun a b => a < b) idxs ∧
      (∀ m ∈ idxs, m < L.length ∧ triggersAt L m = false) ∧
      process_lines L = idxs.map (fun k => rule6Rewrite (L.getD k [])) ∧
      ∀ l : List Char, rule6Hits l = false → rule6Rewrite l = l := by
  obtain ⟨idxs, hmem, hch, heq⟩ := procFrom_subseq L.length L 0 (by omega)
  exact ⟨idxs, hch, fun m hm => ⟨(hmem m hm).2.1, (hmem m hm).2.2⟩, heq, rule6Rewrite_id⟩

/-- Claim C8: write-back only on change. The reported changed flag holds
exactly when the transformed text differs from the original; something
is written exactly when it differs and preview mode is off; the
changed determination is identical with and without preview; and
anything written is exactly the transformed text. -/
theorem claim_C8 (dry : Bool) (content : List Char) :
    ((process_file dry content).1 = true ↔
      (process_lines (splitLinesKeepEnds content)).flatten ≠ content) ∧
    ((process_file dry content).2 ≠ none ↔
      ((process_lines (splitLinesKeepEnds content)).flatten ≠ content ∧ dry = false)) ∧
    (process_file true content).1 = (process_file false content).1 ∧
    (∀ w, (process_file dry content).2 = some w →
      w = (process_lines (splitLinesKeepEnds content)).flatten) := by
  unfold process_file
  by_cases h : (process_lines (splitLinesKeepEnds content)).flatten = content
  · simp [h]
  · cases dry <;> simp [h]

/-- Claim C9: exit and skip behavior of the driver. With no paths among
the arguments the exit status is 1 and no file is touched; with at least
one path the exit status is 0 and every path, in order, is either
skipped (when it does not exist) or processed, so a missing path never
aborts the batch. -/
theorem claim_C9 (args : List (List Char)) (ex : List Char → Bool) :
    (mainPaths args = [] → main args ex = (1, [])) ∧
    (mainPaths args ≠ [] → (main args ex).1 = 0 ∧
      (main args ex).2 = (mainPaths args).map
        (fun p => if ex p then MainEvent.processed p else MainEvent.skip p)) := by
  unfold main
  constructor
  · intro h
    rw [if_pos (by simp [h])]
  · intro h
    rw [if_neg (by simp [h])]
    exact ⟨rfl, rfl⟩

/-- Claim C10: unterminated spans extend to the end of the document and
the transformer still terminates. With no opening brace at or after the
trigger the block scan answers the document length; with no
semicolon-terminated line at or after the trigger the alias scan answers
one past the document length; and in both situations a document whose
lines before the trigger match no rule transforms to exactly those
preceding lines. -/
theorem claim_C10 (L : List (List Char)) (start : Nat) :
    ((start ≤ L.length →
      (∀ k, k < L.length → start ≤ k → (L.getD k []).count openBrace = 0) →
      find_block_end L start = L.length) ∧
     (start ≤ L.length →
      (∀ k, k < L.length → start ≤ k → endsSemi (L.getD k []) = false) →
      remove_multiline_alias L start = L.length + 1) ∧
     (start < L.length → (∀ k, k < start → triggersAny L k = false) →
      matchAliasTrigger (L.getD start []) = true →
      (∀ k, k < L.length → start ≤ k → endsSemi (L.getD k []) = false) →
      process_lines L = L.take start) ∧
     (start < L.length → (∀ k, k < start → triggersAny L k = false) →
      matchAliasTrigger (L.getD start []) = false →
      is_sourced_test_case_multiline L start = true →
      (∀ k, k < L.length → start ≤ k → (L.getD k []).count openBrace = 0) →
      process_lines L = L.take start)) := by
  refine ⟨fun hs hno => find_block_end_noOpen L start hs hno,
    fun hs hno => remove_multiline_alias_none L start hs hno, ?_, ?_⟩
  · intro h1 h2 h3 h4
    unfold process_lines
    rw [procFrom_app start L 0 start (by omega) (by omega) (by omega)
      (fun k _ hk2 => h2 k hk2)]
    rw [procFrom_rule1 L start h1 h3]
    rw [remove_multiline_alias_none L start (by omega) h4]
    rw [procFrom_stop L (L.length + 1) (by omega)]
    simp
  · intro h1 h2 h3 h4 h5
    unfold process_lines
    rw [procFrom_app start L 0 start (by omega) (by omega) (by omega)
      (fun k _ hk2 => h2 k hk2)]
    rw [procFrom_rule2 L start h1 h3 h4]
    rw [find_block_end_noOpen L start (by omega) h5]
    rw [procFrom_stop L L.length (by omega)]
    simp

/-- Witness for C10 on the two unterminated documents: the alias without
a final semicolon and the tagged test case without a brace each swallow
the rest of the document, leaving only the line before the trigger. -/
theorem claim_C10_witness :
    find_block_end c10tc 1 = c10tc.length ∧
    remove_multiline_alias c10alias 1 = c10alias.length + 1 ∧
    process_lines c10alias = c10alias.take 1 ∧
    process_lines c10tc = c10tc.take 1 :=
  ⟨(claim_C10 c10tc 1).1 (by decide) (by decide),
   (claim_C10 c10alias 1).2.1 (by decide) (by decide),
   (claim_C10 c10alias 1).2.2.1 (by decide) (by decide) (by decide) (by decide),
   (claim_C10 c10tc 1).2.2.2 (by decide) (by decide) (by decide) (by decide) (by decide)⟩

/-- Three-line document with a [sourced] tag on the line after the
declaration, sharing that line with the closing parenthesis. -/
def c3pos : List (List Char) :=
  [ "TEST_CASE(\"a\",".toList, "  \"[sourced]\") \x7b".toList, "\x7d".toList ]

/-- Witness for C3: the iff applied at a concrete document whose tag
sits on the same line as the closing parenthesis of the argument list
(the scan examines that line before stopping at it). -/
theorem claim_C3_witness : is_sourced_test_case_multiline c3pos 0 = true :=
  (claim_C3.1 c3pos 0).mpr ⟨by decide, 1, by decide, by decide, by decide, by decide⟩

/-- Document exercising all three output behaviors at once: a rewritten
line, a removed span and an untouched line. -/
def c7doc : List (List Char) :=
  [ "a, false, false, b".toList, "using X_sourced = Y;".toList, "keep".toList ]

/-- Witness for C7: the subsequence-with-rewrites shape at a concrete
document. -/
theorem claim_C7_witness :
    ∃ idxs : List Nat, List.Chain' (fun a b => a < b) idxs ∧
      (∀ m ∈ idxs, m < c7doc.length ∧ triggersAt c7doc m = false) ∧
      process_lines c7doc = idxs.map (fun k => rule6Rewrite (c7doc.getD k [])) ∧
      ∀ l : List Char, rule6Hits l = false → rule6Rewrite l = l :=
  claim_C7 c7doc

/-- Content of the write-back witness. -/
def c8w : List Char := "int x;\n".toList

/-- Witness for C8: the preview-independence of the changed flag at a
concrete content. -/
theorem claim_C8_witness : (process_file true c8w).1 = (process_file false c8w).1 :=
  (claim_C8 true c8w).2.2.1

/-- Argument list of the driver witness. -/
def c9args : List (List Char) :=
  [ "--dry-run".toList, "a.cpp".toList, "b.cpp".toList ]

/-- Witness for C9: with two paths, one missing, the run exits 0,
skips the missing file and processes the other, in order. -/
theorem claim_C9_witness :
    (main c9args (fun p => p == "a.cpp".toList)).1 = 0 ∧
    (main c9args (fun p => p == "a.cpp".toList)).2 = (mainPaths c9args).map
      (fun p => if (p == "a.cpp".toList : Bool) then MainEvent.processed p
                else MainEvent.skip p) :=
  (claim_C9 c9args (fun p => p == "a.cpp".toList)).2 (by decide)

end RemoveSourced
